import Mathlib

/-!
Verification of the title-generator plugin core (src/main.ts) via a shallow
embedding.  Strings are modelled as `List Char`; JavaScript regular-expression
operations used by the source are embedded as explicit recursive functions.
-/

set_option maxHeartbeats 1000000

namespace TitleGen

/-- The opening curly brace character (written numerically). -/
def lb : Char := Char.ofNat 123

/-- The closing curly brace character (written numerically). -/
def rb : Char := Char.ofNat 125

/-- The straight single quote character. -/
def sq : Char := Char.ofNat 39

/-- The straight double quote character. -/
def dq : Char := Char.ofNat 34

/-- The backslash character. -/
def bsl : Char := Char.ofNat 92

/-- JavaScript's `\s` character class (also the character set removed by
`String.prototype.trim`): space, tab, LF, VT, FF, CR, NBSP, and the Unicode
space separators, line/paragraph separators and BOM. -/
def isJsWhitespace (c : Char) : Bool :=
  let n := c.toNat
  n == 32 || (9 ≤ n && n ≤ 13) || n == 0xa0 || n == 0x1680 ||
    (0x2000 ≤ n && n ≤ 0x200a) || n == 0x2028 || n == 0x2029 ||
    n == 0x202f || n == 0x205f || n == 0x3000 || n == 0xfeff

/-- The characters replaced by `removeInvalidFileNameChars` in src/main.ts:
the regex class `[<>:"/\\|?*]`. -/
def isIllegalFileNameChar (c : Char) : Bool :=
  let n := c.toNat
  n == 60 || n == 62 || n == 58 || n == 34 || n == 47 ||
    n == 92 || n == 124 || n == 63 || n == 42

/-- The character class of the regex in `stripSurroundingQuotes`
(src/main.ts): whitespace, straight quotes, and curly quotes. -/
def isQuoteStripChar (c : Char) : Bool :=
  isJsWhitespace c || c == dq || c == sq ||
    c.toNat == 0x201c || c.toNat == 0x201d ||
    c.toNat == 0x2018 || c.toNat == 0x2019

/-- Drop the maximal run of characters satisfying `f` from both ends of a
list.  This is how a JS `replace(/^X+|X+$/g, '')` (and `trim`) acts. -/
def dropEnds (f : Char → Bool) (l : List Char) : List Char :=
  ((l.dropWhile f).reverse.dropWhile f).reverse

theorem dropWhile_length_le (f : Char → Bool) (l : List Char) :
    (l.dropWhile f).length ≤ l.length :=
  (List.dropWhile_sublist (l := l) f).length_le

/-- Replace every maximal run of characters satisfying `f` by the single
character `rep`; this is how a JS `replace(/X+/g, rep)` acts.  (The
replacement character is emitted at the end of each run, which yields the
same output string as the regex replacement.) -/
def collapseRuns (f : Char → Bool) (rep : Char) : List Char → List Char
  | [] => []
  | [c] => if f c then [rep] else [c]
  | c :: d :: rest =>
    if f c then
      if f d then collapseRuns f rep (d :: rest)
      else rep :: collapseRuns f rep (d :: rest)
    else c :: collapseRuns f rep (d :: rest)

/-- `stripSurroundingQuotes` from src/main.ts:
`s.replace(/^[\s"'“”‘’]+|[\s"'“”‘’]+$/g, '')`. -/
def stripSurroundingQuotes (s : List Char) : List Char :=
  dropEnds isQuoteStripChar s

/-- JavaScript `String.prototype.trim`. -/
def jsTrim (s : List Char) : List Char :=
  dropEnds isJsWhitespace s

/-- `removeInvalidFileNameChars` from src/main.ts:
`s.replace(/[<>:"/\\|?*]/g, ' ').replace(/\s+/g, ' ').trim()`. -/
def removeInvalidFileNameChars (s : List Char) : List Char :=
  jsTrim (collapseRuns isJsWhitespace ' '
    (s.map (fun c => if isIllegalFileNameChar c then ' ' else c)))

/-- The sanitization pipeline applied by `generateTitle` in src/main.ts:
`stripSurroundingQuotes` followed by `removeInvalidFileNameChars`. -/
def sanitize (s : List Char) : List Char :=
  removeInvalidFileNameChars (stripSurroundingQuotes s)

/-! ### Basic lemmas about `dropWhile`, `dropEnds` and `collapseRuns` -/

theorem dropWhile_head_not {f : Char → Bool} :
    ∀ {l : List Char} {a : Char} {t : List Char},
      l.dropWhile f = a :: t → f a = false := by
  intro l
  induction l with
  | nil => intro a t h; simp [List.dropWhile] at h
  | cons x xs ih =>
    intro a t h
    by_cases hx : f x
    · rw [List.dropWhile_cons_of_pos hx] at h; exact ih h
    · rw [List.dropWhile_cons_of_neg hx] at h
      cases h; simpa using hx

theorem dropWhile_eq_self_of_head {f : Char → Bool} {a : Char}
    {t : List Char} (h : f a = false) :
    (a :: t).dropWhile f = a :: t := by
  simp [List.dropWhile, h]

theorem dropWhile_eq_append (f : Char → Bool) :
    ∀ l : List Char, ∃ u, u ++ l.dropWhile f = l := by
  intro l
  induction l with
  | nil => exact ⟨[], rfl⟩
  | cons x xs ih =>
    by_cases hx : f x
    · obtain ⟨u, hu⟩ := ih
      exact ⟨x :: u, by simp [List.dropWhile_cons_of_pos hx, hu]⟩
    · exact ⟨[], by simp [List.dropWhile_cons_of_neg hx]⟩

theorem dropWhile_idem (f : Char → Bool) (l : List Char) :
    (l.dropWhile f).dropWhile f = l.dropWhile f := by
  cases h : l.dropWhile f with
  | nil => simp
  | cons a t => exact dropWhile_eq_self_of_head (dropWhile_head_not h)

/-- Dropping a run from the back of a list. -/
def backDrop (f : Char → Bool) (l : List Char) : List Char :=
  (l.reverse.dropWhile f).reverse

theorem dropEnds_eq_backDrop (f : Char → Bool) (l : List Char) :
    dropEnds f l = backDrop f (l.dropWhile f) := rfl

theorem backDrop_idem (f : Char → Bool) (l : List Char) :
    backDrop f (backDrop f l) = backDrop f l := by
  unfold backDrop
  rw [List.reverse_reverse, dropWhile_idem]

theorem dropWhile_fix_head {f : Char → Bool} {m : List Char} {a : Char}
    {t : List Char} (hfix : m.dropWhile f = m) (hm : m = a :: t) :
    f a = false := by
  by_contra hfa
  subst hm
  rw [List.dropWhile_cons_of_pos (by simpa using hfa)] at hfix
  have hlen := congrArg List.length hfix
  have hle := dropWhile_length_le f t
  simp at hlen
  omega

/-- A prefix of a front-stripped list is itself front-stripped. -/
theorem dropWhile_fix_of_append {f : Char → Bool} {x y m : List Char}
    (hfix : m.dropWhile f = m) (hm : m = x ++ y) :
    x.dropWhile f = x := by
  cases hx : x with
  | nil => simp
  | cons a xs =>
    have : m = a :: (xs ++ y) := by rw [hm, hx]; simp
    exact dropWhile_eq_self_of_head (dropWhile_fix_head hfix this)

theorem backDrop_append_eq (f : Char → Bool) (l : List Char) :
    ∃ u, backDrop f l ++ u = l := by
  obtain ⟨u, hu⟩ := dropWhile_eq_append f l.reverse
  refine ⟨u.reverse, ?_⟩
  have := congrArg List.reverse hu
  simpa [backDrop] using this

/-- Back-dropping preserves being front-stripped. -/
theorem dropWhile_backDrop_fix {f : Char → Bool} {m : List Char}
    (hfix : m.dropWhile f = m) :
    (backDrop f m).dropWhile f = backDrop f m := by
  obtain ⟨u, hu⟩ := backDrop_append_eq f m
  exact dropWhile_fix_of_append hfix hu.symm

/-- `dropEnds` is idempotent. -/
theorem dropEnds_idem (f : Char → Bool) (l : List Char) :
    dropEnds f (dropEnds f l) = dropEnds f l := by
  rw [dropEnds_eq_backDrop, dropEnds_eq_backDrop,
    dropWhile_backDrop_fix (dropWhile_idem f l), backDrop_idem]

/-- C2 stage-idempotence helper: `stripSurroundingQuotes` is idempotent. -/
theorem stripSurroundingQuotes_idem (l : List Char) :
    stripSurroundingQuotes (stripSurroundingQuotes l)
      = stripSurroundingQuotes l :=
  dropEnds_idem _ l

/-! ### Structural facts about `collapseRuns` and `dropEnds` output -/

/-- No two adjacent characters both satisfy `f`. -/
def noTwoAdjacent (f : Char → Bool) : List Char → Bool
  | a :: b :: r => (!(f a && f b)) && noTwoAdjacent f (b :: r)
  | _ => true

/-- The head (if any) does not satisfy `f`. -/
def headNotIn (f : Char → Bool) (l : List Char) : Bool :=
  match l with
  | [] => true
  | a :: _ => !f a

theorem noTwoAdj_cons_of_not {f : Char → Bool} {a : Char} {xs : List Char}
    (ha : f a = false) :
    noTwoAdjacent f (a :: xs) = noTwoAdjacent f xs := by
  cases xs with
  | nil => simp [noTwoAdjacent]
  | cons b r => simp [noTwoAdjacent, ha]

theorem noTwoAdj_cons_of_head_not {f : Char → Bool} {a : Char}
    {xs : List Char} (hxs : noTwoAdjacent f xs = true)
    (hh : headNotIn f xs = true) :
    noTwoAdjacent f (a :: xs) = true := by
  cases xs with
  | nil => simp [noTwoAdjacent]
  | cons b r =>
    simp [headNotIn] at hh
    simp [noTwoAdjacent, hh, hxs]

theorem noTwoAdj_append_right {f : Char → Bool} :
    ∀ {u v : List Char}, noTwoAdjacent f (u ++ v) = true →
      noTwoAdjacent f v = true := by
  intro u
  induction u with
  | nil => intro v h; simpa using h
  | cons a u ih =>
    intro v h
    apply ih
    cases hu : u ++ v with
    | nil => simp [hu, noTwoAdjacent]
    | cons b r =>
      rw [List.cons_append, hu] at h
      simp [noTwoAdjacent] at h
      exact h.2

theorem noTwoAdj_append_left {f : Char → Bool} :
    ∀ {u v : List Char}, noTwoAdjacent f (u ++ v) = true →
      noTwoAdjacent f u = true := by
  intro u
  induction u with
  | nil => intro v _; rfl
  | cons a u ih =>
    intro v h
    cases hu : u with
    | nil => simp [noTwoAdjacent]
    | cons b r =>
      subst hu
      rw [List.cons_append, List.cons_append] at h
      simp [noTwoAdjacent] at h ⊢
      refine ⟨h.1, ?_⟩
      have := ih (v := v) (by rw [List.cons_append]; exact h.2)
      exact this

theorem collapseRuns_mem {f : Char → Bool} {rep : Char} :
    ∀ {l : List Char} {c : Char}, c ∈ collapseRuns f rep l →
      c = rep ∨ c ∈ l := by
  intro l
  induction l using collapseRuns.induct f rep with
  | case1 => intro c h; simp [collapseRuns] at h
  | case2 a ha =>
    intro c h
    rw [collapseRuns, if_pos ha] at h
    simp at h
    exact Or.inl h
  | case3 a ha =>
    intro c h
    rw [collapseRuns, if_neg ha] at h
    exact Or.inr h
  | case4 a b rest ha hb ih =>
    intro c h
    rw [collapseRuns, if_pos ha, if_pos hb] at h
    rcases ih h with h | h
    · exact Or.inl h
    · exact Or.inr (List.mem_cons_of_mem _ h)
  | case5 a b rest ha hb ih =>
    intro c h
    rw [collapseRuns, if_pos ha, if_neg hb] at h
    rcases List.mem_cons.1 h with h | h
    · exact Or.inl h
    · rcases ih h with h | h
      · exact Or.inl h
      · exact Or.inr (List.mem_cons_of_mem _ h)
  | case6 a b rest ha ih =>
    intro c h
    rw [collapseRuns, if_neg ha] at h
    rcases List.mem_cons.1 h with h | h
    · exact Or.inr (h ▸ List.mem_cons_self _ _)
    · rcases ih h with h | h
      · exact Or.inl h
      · exact Or.inr (List.mem_cons_of_mem _ h)

theorem collapseRuns_marked {f : Char → Bool} {rep : Char} :
    ∀ {l : List Char} {c : Char}, c ∈ collapseRuns f rep l →
      f c = true → c = rep := by
  intro l
  induction l using collapseRuns.induct f rep with
  | case1 => intro c h; simp [collapseRuns] at h
  | case2 a ha =>
    intro c h _
    rw [collapseRuns, if_pos ha] at h
    simpa using h
  | case3 a ha =>
    intro c h hc
    rw [collapseRuns, if_neg ha] at h
    simp at h
    rw [h] at hc
    simp [hc] at ha
  | case4 a b rest ha hb ih =>
    intro c h hc
    rw [collapseRuns, if_pos ha, if_pos hb] at h
    exact ih h hc
  | case5 a b rest ha hb ih =>
    intro c h hc
    rw [collapseRuns, if_pos ha, if_neg hb] at h
    rcases List.mem_cons.1 h with h | h
    · exact h
    · exact ih h hc
  | case6 a b rest ha ih =>
    intro c h hc
    rw [collapseRuns, if_neg ha] at h
    rcases List.mem_cons.1 h with h | h
    · rw [h] at hc; simp [hc] at ha
    · exact ih h hc

theorem collapseRuns_headNotIn {f : Char → Bool} {rep : Char}
    {m : List Char} (hm : headNotIn f m = true) :
    headNotIn f (collapseRuns f rep m) = true := by
  cases m with
  | nil => simp [collapseRuns, headNotIn]
  | cons a t =>
    have ha : f a = false := by simpa [headNotIn] using hm
    cases t with
    | nil =>
      rw [collapseRuns, if_neg (by simp [ha])]
      simp [headNotIn, ha]
    | cons b r =>
      rw [collapseRuns, if_neg (by simp [ha])]
      simp [headNotIn, ha]

theorem collapseRuns_noTwoAdj (f : Char → Bool) (rep : Char) :
    ∀ l : List Char, noTwoAdjacent f (collapseRuns f rep l) = true := by
  intro l
  induction l using collapseRuns.induct f rep with
  | case1 => simp [collapseRuns, noTwoAdjacent]
  | case2 a ha => rw [collapseRuns, if_pos ha]; rfl
  | case3 a ha => rw [collapseRuns, if_neg ha]; rfl
  | case4 a b rest ha hb ih =>
    rw [collapseRuns, if_pos ha, if_pos hb]
    exact ih
  | case5 a b rest ha hb ih =>
    rw [collapseRuns, if_pos ha, if_neg hb]
    refine noTwoAdj_cons_of_head_not ih (collapseRuns_headNotIn ?_)
    simp [headNotIn]
    simpa using hb
  | case6 a b rest ha ih =>
    rw [collapseRuns, if_neg ha,
      noTwoAdj_cons_of_not (f := f) (by simpa using ha)]
    exact ih

/-- `collapseRuns` is the identity on lists whose `f`-characters are
isolated occurrences of `rep`. -/
theorem collapseRuns_id {f : Char → Bool} {rep : Char} :
    ∀ {l : List Char}, noTwoAdjacent f l = true →
      (∀ c ∈ l, f c = true → c = rep) → collapseRuns f rep l = l := by
  intro l
  induction l using collapseRuns.induct f rep with
  | case1 => intro _ _; simp [collapseRuns]
  | case2 a ha =>
    intro _ hmark
    rw [collapseRuns, if_pos ha, hmark a (List.mem_cons_self _ _) ha]
  | case3 a ha =>
    intro _ _
    rw [collapseRuns, if_neg ha]
  | case4 a b rest ha hb ih =>
    intro hadj _
    simp [noTwoAdjacent, ha, hb] at hadj
  | case5 a b rest ha hb ih =>
    intro hadj hmark
    have hadj2 : noTwoAdjacent f (b :: rest) = true := by
      simp [noTwoAdjacent] at hadj
      exact hadj.2
    rw [collapseRuns, if_pos ha, if_neg hb,
      ih hadj2 (fun c hc => hmark c (List.mem_cons_of_mem _ hc)),
      hmark a (List.mem_cons_self _ _) ha]
  | case6 a b rest ha ih =>
    intro hadj hmark
    have ha2 : f a = false := by simpa using ha
    rw [collapseRuns, if_neg ha,
      ih (by rw [← noTwoAdj_cons_of_not ha2]; exact hadj)
        (fun c hc => hmark c (List.mem_cons_of_mem _ hc))]

/-! ### Facts about `dropEnds` output -/

theorem dropEnds_front_fix (f : Char → Bool) (l : List Char) :
    (dropEnds f l).dropWhile f = dropEnds f l := by
  rw [dropEnds_eq_backDrop]
  exact dropWhile_backDrop_fix (dropWhile_idem f l)

theorem dropEnds_back_fix (f : Char → Bool) (l : List Char) :
    (dropEnds f l).reverse.dropWhile f = (dropEnds f l).reverse := by
  unfold dropEnds
  rw [List.reverse_reverse]
  exact dropWhile_idem f _

theorem dropEnds_headNotIn (f : Char → Bool) (l : List Char) :
    headNotIn f (dropEnds f l) = true := by
  cases h : dropEnds f l with
  | nil => rfl
  | cons a t =>
    have := dropEnds_front_fix f l
    rw [h] at this
    simp [headNotIn, dropWhile_fix_head this rfl]

theorem dropEnds_lastNotIn (f : Char → Bool) (l : List Char) :
    headNotIn f (dropEnds f l).reverse = true := by
  cases h : (dropEnds f l).reverse with
  | nil => rfl
  | cons a t =>
    have := dropEnds_back_fix f l
    rw [h] at this
    simp [headNotIn, dropWhile_fix_head this rfl]

/-- `dropEnds` yields an infix of its input. -/
theorem dropEnds_infix (f : Char → Bool) (l : List Char) :
    ∃ u v, u ++ dropEnds f l ++ v = l := by
  obtain ⟨u, hu⟩ := dropWhile_eq_append f l
  obtain ⟨v, hv⟩ := backDrop_append_eq f (l.dropWhile f)
  refine ⟨u, v, ?_⟩
  rw [List.append_assoc, dropEnds_eq_backDrop, hv, hu]

theorem dropEnds_subset {f : Char → Bool} {l : List Char} {c : Char}
    (h : c ∈ dropEnds f l) : c ∈ l := by
  obtain ⟨u, v, huv⟩ := dropEnds_infix f l
  rw [← huv]
  simp [h]

theorem dropEnds_noTwoAdj {f g : Char → Bool} {l : List Char}
    (h : noTwoAdjacent g l = true) :
    noTwoAdjacent g (dropEnds f l) = true := by
  obtain ⟨u, v, huv⟩ := dropEnds_infix f l
  rw [← huv, List.append_assoc] at h
  exact noTwoAdj_append_left (noTwoAdj_append_right h)

/-! ### Idempotence of `removeInvalidFileNameChars`, and C10 facts -/

theorem map_id_of_not_illegal {l : List Char}
    (h : ∀ c ∈ l, isIllegalFileNameChar c = false) :
    l.map (fun c => if isIllegalFileNameChar c then ' ' else c) = l := by
  induction l with
  | nil => rfl
  | cons a t ih =>
    simp only [List.map_cons]
    rw [if_neg (by simp [h a (List.mem_cons_self _ _)]),
      ih (fun c hc => h c (List.mem_cons_of_mem _ hc))]

theorem removeInvalid_no_illegal (s : List Char) :
    ∀ c ∈ removeInvalidFileNameChars s, isIllegalFileNameChar c = false := by
  intro c hc
  unfold removeInvalidFileNameChars jsTrim at hc
  have hc2 := dropEnds_subset hc
  rcases collapseRuns_mem hc2 with h | h
  · subst h; rfl
  · obtain ⟨a, _, ha⟩ := List.mem_map.1 h
    by_cases hia : isIllegalFileNameChar a
    · rw [if_pos hia] at ha; subst ha; rfl
    · rw [if_neg hia] at ha; subst ha; simpa using hia

theorem removeInvalid_marked (s : List Char) :
    ∀ c ∈ removeInvalidFileNameChars s,
      isJsWhitespace c = true → c = ' ' := by
  intro c hc hw
  unfold removeInvalidFileNameChars jsTrim at hc
  exact collapseRuns_marked (dropEnds_subset hc) hw

theorem removeInvalid_noTwoAdj (s : List Char) :
    noTwoAdjacent isJsWhitespace (removeInvalidFileNameChars s) = true := by
  unfold removeInvalidFileNameChars jsTrim
  exact dropEnds_noTwoAdj (collapseRuns_noTwoAdj _ _ _)

theorem removeInvalid_headNotWs (s : List Char) :
    headNotIn isJsWhitespace (removeInvalidFileNameChars s) = true :=
  dropEnds_headNotIn _ _

theorem removeInvalid_lastNotWs (s : List Char) :
    headNotIn isJsWhitespace (removeInvalidFileNameChars s).reverse = true :=
  dropEnds_lastNotIn _ _

theorem dropEnds_id {f : Char → Bool} {l : List Char}
    (hh : headNotIn f l = true) (hl : headNotIn f l.reverse = true) :
    dropEnds f l = l := by
  have h1 : l.dropWhile f = l := by
    cases l with
    | nil => rfl
    | cons a t => exact dropWhile_eq_self_of_head (by simpa [headNotIn] using hh)
  have h2 : l.reverse.dropWhile f = l.reverse := by
    cases hr : l.reverse with
    | nil => simp [hr]
    | cons a t =>
      rw [hr] at hl
      exact dropWhile_eq_self_of_head (by simpa [headNotIn] using hl)
  unfold dropEnds
  rw [h1, h2, List.reverse_reverse]

/-- C2 stage-idempotence helper: `removeInvalidFileNameChars` is
idempotent. -/
theorem removeInvalidFileNameChars_idem (s : List Char) :
    removeInvalidFileNameChars (removeInvalidFileNameChars s)
      = removeInvalidFileNameChars s := by
  set y := removeInvalidFileNameChars s with hy
  conv_lhs => rw [removeInvalidFileNameChars]
  rw [map_id_of_not_illegal (removeInvalid_no_illegal s),
    collapseRuns_id (removeInvalid_noTwoAdj s) (removeInvalid_marked s)]
  exact dropEnds_id (removeInvalid_headNotWs s) (removeInvalid_lastNotWs s)

/-! ### Claim C2 (sanitizer idempotence) and C10 (filename safety) -/

/-- No character of the list is in the illegal filename class. -/
def noIllegalChars (l : List Char) : Bool :=
  l.all (fun c => !isIllegalFileNameChar c)

/-- C2 counterexample: the sanitization pipeline applied by `generateTitle`
is NOT idempotent.  On the input `a'*` the first pass turns `*` into a
space and trims it away, leaving a trailing straight quote `a'`; a second
pass strips that quote, giving `a`. -/
theorem claim_C2_counterexample :
    sanitize (sanitize ['a', sq, '*']) ≠ sanitize ['a', sq, '*'] := by
  decide

/-- C2 (amended): each stage of the sanitization pipeline is idempotent —
`stripSurroundingQuotes` and `removeInvalidFileNameChars` each satisfy
`f (f x) = f x` — but the composed pipeline `sanitize` is not, because
replacing an illegal character by a space can expose a new trailing or
leading quote character that only the quote-stripping stage of a second
pass would remove. -/
theorem claim_C2_stage_idempotence (x : List Char) :
    stripSurroundingQuotes (stripSurroundingQuotes x)
        = stripSurroundingQuotes x ∧
      removeInvalidFileNameChars (removeInvalidFileNameChars x)
        = removeInvalidFileNameChars x :=
  ⟨stripSurroundingQuotes_idem x, removeInvalidFileNameChars_idem x⟩

/-- C10: for every input, the sanitizer output contains no illegal filename
character, has no whitespace at either end, and contains no two consecutive
whitespace characters. -/
theorem claim_C10_sanitize_filename_safe (x : List Char) :
    noIllegalChars (sanitize x) = true ∧
      noTwoAdjacent isJsWhitespace (sanitize x) = true ∧
      headNotIn isJsWhitespace (sanitize x) = true ∧
      headNotIn isJsWhitespace (sanitize x).reverse = true := by
  refine ⟨?_, ?_, ?_, ?_⟩
  · rw [noIllegalChars, List.all_eq_true]
    intro c hc
    simp [removeInvalid_no_illegal (stripSurroundingQuotes x) c hc]
  · exact removeInvalid_noTwoAdj (stripSurroundingQuotes x)
  · exact removeInvalid_headNotWs (stripSurroundingQuotes x)
  · exact removeInvalid_lastNotWs (stripSurroundingQuotes x)

/-! ### Template renderer: `renderPrompt` (src/main.ts)

The source replaces the placeholder with
`tmpl.replace(/\{\{\s*content\s*\}\}/gi, content)`.  The regex is embedded
as an explicit matcher: `\s*` is greedy, but since no whitespace character
can begin the literal `content` or the closing braces, maximal-munch
`dropWhile` is exactly the regex's backtracking behaviour; the `i` flag
canonicalizes only ASCII case for the ASCII letters of the literal. -/

/-- Case-insensitive comparison of a subject character `c` against a
lowercase ASCII pattern letter `p` (regex `i`-flag canonicalization). -/
def ciEq (c p : Char) : Bool :=
  c == p || c.toNat + 32 == p.toNat

/-- Consume a case-insensitive literal from the front of a list, returning
the remainder on success. -/
def eatCI : List Char → List Char → Option (List Char)
  | [], l => some l
  | _ :: _, [] => none
  | p :: ps, c :: cs => if ciEq c p then eatCI ps cs else none

/-- The letters of the placeholder literal. -/
def contentPat : List Char := ['c', 'o', 'n', 't', 'e', 'n', 't']

/-- Require the two closing braces of the placeholder. -/
def matchPHClose : List Char → Option (List Char)
  | c :: d :: r => if c == rb && d == rb then some r else none
  | _ => none

/-- Match the part of the placeholder after the two opening braces:
`\s*content\s*\}\}` (case-insensitive literal). -/
def matchPHAfterBraces (r : List Char) : Option (List Char) :=
  match eatCI contentPat (r.dropWhile isJsWhitespace) with
  | some r2 => matchPHClose (r2.dropWhile isJsWhitespace)
  | none => none

/-- Match the full placeholder regex `\{\{\s*content\s*\}\}` (flag `i`) at
the front of a list; returns the remainder after the match. -/
def matchPH (l : List Char) : Option (List Char) :=
  match l with
  | a :: b :: r => if a == lb && b == lb then matchPHAfterBraces r else none
  | _ => none

theorem matchPHAfterBraces_some {r r2 : List Char}
    (he : eatCI contentPat (r.dropWhile isJsWhitespace) = some r2) :
    matchPHAfterBraces r = matchPHClose (r2.dropWhile isJsWhitespace) := by
  simp only [matchPHAfterBraces, he]

theorem matchPHAfterBraces_none {r : List Char}
    (he : eatCI contentPat (r.dropWhile isJsWhitespace) = none) :
    matchPHAfterBraces r = none := by
  simp only [matchPHAfterBraces, he]

theorem eatCI_length_le :
    ∀ {ps l r : List Char}, eatCI ps l = some r → r.length ≤ l.length := by
  intro ps
  induction ps with
  | nil =>
    intro l r h
    rw [eatCI] at h
    cases h
    exact le_refl _
  | cons p ps ih =>
    intro l r h
    cases l with
    | nil => simp [eatCI] at h
    | cons c cs =>
      rw [eatCI] at h
      split at h
      · exact le_trans (ih h) (by simp)
      · simp at h

theorem matchPHClose_length {l r : List Char} (h : matchPHClose l = some r) :
    r.length < l.length := by
  cases l with
  | nil => simp [matchPHClose] at h
  | cons c t =>
    cases t with
    | nil => simp [matchPHClose] at h
    | cons d r2 =>
      rw [matchPHClose] at h
      split at h
      · cases h; simp; omega
      · simp at h

theorem matchPHAfterBraces_length {l r : List Char}
    (h : matchPHAfterBraces l = some r) : r.length < l.length := by
  cases he : eatCI contentPat (l.dropWhile isJsWhitespace) with
  | none => rw [matchPHAfterBraces_none he] at h; simp at h
  | some r2 =>
    rw [matchPHAfterBraces_some he] at h
    have h1 : r2.length ≤ l.length :=
      le_trans (eatCI_length_le he) (dropWhile_length_le _ l)
    have h2 := matchPHClose_length h
    have h3 := dropWhile_length_le isJsWhitespace r2
    omega

theorem matchPH_length {l r : List Char} (h : matchPH l = some r) :
    r.length < l.length := by
  cases l with
  | nil => simp [matchPH] at h
  | cons a t =>
    cases t with
    | nil => simp [matchPH] at h
    | cons b t2 =>
      rw [matchPH] at h
      split at h
      · have := matchPHAfterBraces_length h
        simp
        omega
      · simp at h

/-- The template scan of `String.prototype.replace` with a `g`-flag
pattern that cannot match the empty string: at each position, if the
pattern matches, emit the replacement and continue after the match,
otherwise emit the character and continue.  `fuel` bounds the recursion;
the caller passes the list length, and a match always consumes at least
two characters, so the out-of-fuel branch is never reached. -/
def render (c : List Char) : Nat → List Char → List Char
  | 0, l => l
  | fuel + 1, l =>
    match l with
    | [] => []
    | x :: rest =>
      match matchPH (x :: rest) with
      | some r => c ++ render c fuel r
      | none => x :: render c fuel rest

/-- `tmpl.replace(/\{\{\s*content\s*\}\}/gi, content)` from
`renderPrompt` in src/main.ts. -/
def renderTemplate (tmpl content : List Char) : List Char :=
  render content tmpl.length tmpl

/-- The non-matching segments of a template, in scan order: the template
is the concatenation of these segments with one placeholder match between
each two consecutive segments. -/
def segsF : Nat → List Char → List (List Char)
  | 0, l => [l]
  | fuel + 1, l =>
    match l with
    | [] => [[]]
    | x :: rest =>
      match matchPH (x :: rest) with
      | some r => [] :: segsF fuel r
      | none =>
        match segsF fuel rest with
        | s :: ss => (x :: s) :: ss
        | [] => [[x]]

/-- The non-matching segments of a template. -/
def segs (l : List Char) : List (List Char) := segsF l.length l

/-- Interleave the replacement between consecutive segments. -/
def joinSegs (c : List Char) : List (List Char) → List Char
  | [] => []
  | [s] => s
  | s :: ss => s ++ c ++ joinSegs c ss

/-- Whether the placeholder pattern matches anywhere in the list. -/
def containsPH : List Char → Bool
  | [] => false
  | x :: rest => (matchPH (x :: rest)).isSome || containsPH rest

theorem render_succ_some {c : List Char} {fuel : Nat} {x : Char}
    {rest r : List Char} (hm : matchPH (x :: rest) = some r) :
    render c (fuel + 1) (x :: rest) = c ++ render c fuel r := by
  simp only [render, hm]

theorem render_succ_none {c : List Char} {fuel : Nat} {x : Char}
    {rest : List Char} (hm : matchPH (x :: rest) = none) :
    render c (fuel + 1) (x :: rest) = x :: render c fuel rest := by
  simp only [render, hm]

theorem segsF_succ_some {fuel : Nat} {x : Char} {rest r : List Char}
    (hm : matchPH (x :: rest) = some r) :
    segsF (fuel + 1) (x :: rest) = [] :: segsF fuel r := by
  simp only [segsF, hm]

theorem segsF_succ_none {fuel : Nat} {x : Char} {rest s : List Char}
    {ss : List (List Char)} (hm : matchPH (x :: rest) = none)
    (hs : segsF fuel rest = s :: ss) :
    segsF (fuel + 1) (x :: rest) = (x :: s) :: ss := by
  simp only [segsF, hm, hs]

theorem segsF_ne_nil : ∀ (fuel : Nat) (l : List Char), segsF fuel l ≠ [] := by
  intro fuel l
  cases fuel with
  | zero => simp [segsF]
  | succ fuel =>
    cases l with
    | nil => simp [segsF]
    | cons x rest =>
      cases hm : matchPH (x :: rest) with
      | some r => rw [segsF_succ_some hm]; simp
      | none =>
        cases hs : segsF fuel rest with
        | nil => exact absurd hs (segsF_ne_nil fuel rest)
        | cons s ss => rw [segsF_succ_none hm hs]; simp

/-- The head segment is a prefix of the scanned list. -/
theorem segsF_head_ext :
    ∀ (fuel : Nat) (l s : List Char) (ss : List (List Char)),
      segsF fuel l = s :: ss → ∃ w, s ++ w = l := by
  intro fuel
  induction fuel with
  | zero =>
    intro l s ss h
    rw [segsF] at h
    cases h
    exact ⟨[], by simp⟩
  | succ fuel ih =>
    intro l s ss h
    cases l with
    | nil =>
      simp only [segsF] at h
      cases h
      exact ⟨[], rfl⟩
    | cons x rest =>
      cases hm : matchPH (x :: rest) with
      | some r =>
        rw [segsF_succ_some hm] at h
        cases h
        exact ⟨x :: rest, rfl⟩
      | none =>
        cases hs : segsF fuel rest with
        | nil => exact absurd hs (segsF_ne_nil fuel rest)
        | cons s2 ss2 =>
          rw [segsF_succ_none hm hs] at h
          cases h
          obtain ⟨w, hw⟩ := ih rest s2 _ hs
          exact ⟨w, by rw [List.cons_append, hw]⟩

theorem render_eq_joinSegs (c : List Char) :
    ∀ (fuel : Nat) (l : List Char),
      render c fuel l = joinSegs c (segsF fuel l) := by
  intro fuel
  induction fuel with
  | zero => intro l; simp [render, segsF, joinSegs]
  | succ fuel ih =>
    intro l
    cases l with
    | nil => simp [render, segsF, joinSegs]
    | cons x rest =>
      cases hm : matchPH (x :: rest) with
      | some r =>
        rw [render_succ_some hm, segsF_succ_some hm, ih r]
        cases hs : segsF fuel r with
        | nil => exact absurd hs (segsF_ne_nil fuel r)
        | cons s ss => simp [joinSegs]
      | none =>
        cases hs : segsF fuel rest with
        | nil => exact absurd hs (segsF_ne_nil fuel rest)
        | cons s ss =>
          rw [render_succ_none hm, segsF_succ_none hm hs, ih rest, hs]
          cases ss with
          | nil => simp [joinSegs]
          | cons s2 ss2 => simp [joinSegs]

theorem dropWhile_append_cons {f : Char → Bool} :
    ∀ {l : List Char} {a : Char} {t w : List Char},
      l.dropWhile f = a :: t → (l ++ w).dropWhile f = a :: (t ++ w) := by
  intro l
  induction l with
  | nil => intro a t w h; simp [List.dropWhile] at h
  | cons x xs ih =>
    intro a t w h
    by_cases hx : f x
    · rw [List.dropWhile_cons_of_pos hx] at h
      rw [List.cons_append, List.dropWhile_cons_of_pos hx]
      exact ih h
    · rw [List.dropWhile_cons_of_neg hx] at h
      cases h
      rw [List.cons_append, List.dropWhile_cons_of_neg hx]

theorem eatCI_append :
    ∀ {ps l r w : List Char}, eatCI ps l = some r →
      eatCI ps (l ++ w) = some (r ++ w) := by
  intro ps
  induction ps with
  | nil =>
    intro l r w h
    rw [eatCI] at h
    cases h
    rfl
  | cons p ps ih =>
    intro l r w h
    cases l with
    | nil => simp [eatCI] at h
    | cons c cs =>
      rw [eatCI] at h
      split at h
      · rw [List.cons_append, eatCI, if_pos (by assumption)]
        exact ih h
      · simp at h

theorem matchPHClose_append {l r w : List Char}
    (h : matchPHClose l = some r) :
    matchPHClose (l ++ w) = some (r ++ w) := by
  cases l with
  | nil => simp [matchPHClose] at h
  | cons c t =>
    cases t with
    | nil => simp [matchPHClose] at h
    | cons d r2 =>
      rw [matchPHClose] at h
      split at h
      · cases h
        rw [List.cons_append, List.cons_append, matchPHClose,
          if_pos (by assumption)]
      · simp at h

/-- Matching is stable under extending the input to the right: the match
consumes the same characters and the remainder is extended. -/
theorem matchPH_append {l r w : List Char} (h : matchPH l = some r) :
    matchPH (l ++ w) = some (r ++ w) := by
  cases l with
  | nil => simp [matchPH] at h
  | cons a t =>
    cases t with
    | nil => simp [matchPH] at h
    | cons b t2 =>
      rw [matchPH] at h
      split at h
      · rw [List.cons_append, List.cons_append, matchPH,
          if_pos (by assumption)]
        cases he : eatCI contentPat (t2.dropWhile isJsWhitespace) with
        | none => rw [matchPHAfterBraces_none he] at h; simp at h
        | some r2 =>
          rw [matchPHAfterBraces_some he] at h
          -- the whitespace run before the literal ends inside `t2`
          cases hd : t2.dropWhile isJsWhitespace with
          | nil =>
            rw [hd] at he
            simp [eatCI, contentPat] at he
          | cons y ys =>
            rw [hd] at he
            have he2 : eatCI contentPat ((t2 ++ w).dropWhile isJsWhitespace)
                = some (r2 ++ w) := by
              rw [dropWhile_append_cons hd, ← List.cons_append]
              exact eatCI_append he
            rw [matchPHAfterBraces_some he2]
            -- the whitespace run before the closing braces ends inside `r2`
            cases hd2 : r2.dropWhile isJsWhitespace with
            | nil =>
              rw [hd2] at h
              simp [matchPHClose] at h
            | cons z zs =>
              rw [hd2] at h
              rw [dropWhile_append_cons hd2, ← List.cons_append]
              exact matchPHClose_append h
      · simp at h

/-- No segment produced by the scan contains a placeholder occurrence. -/
theorem segsF_noPH :
    ∀ (fuel : Nat) (l : List Char), l.length ≤ fuel →
      ∀ s ∈ segsF fuel l, containsPH s = false := by
  intro fuel
  induction fuel with
  | zero =>
    intro l hl s hs
    have : l = [] := by
      cases l with
      | nil => rfl
      | cons a t => simp at hl
    subst this
    rw [segsF] at hs
    simp at hs
    simp [hs, containsPH]
  | succ fuel ih =>
    intro l hl s hs
    cases l with
    | nil =>
      simp only [segsF] at hs
      simp at hs
      simp [hs, containsPH]
    | cons x rest =>
      cases hm : matchPH (x :: rest) with
      | some r =>
        rw [segsF_succ_some hm] at hs
        rcases List.mem_cons.1 hs with h | h
        · simp [h, containsPH]
        · have hr : r.length ≤ fuel := by
            have hlt := matchPH_length hm
            rw [List.length_cons] at hlt
            simp at hl
            omega
          exact ih r hr s h
      | none =>
        have hrest : rest.length ≤ fuel := by simp at hl; omega
        cases hsegs : segsF fuel rest with
        | nil => exact absurd hsegs (segsF_ne_nil fuel rest)
        | cons s2 ss2 =>
          rw [segsF_succ_none hm hsegs] at hs
          rcases List.mem_cons.1 hs with h | h
          · subst h
            have hs2 : containsPH s2 = false :=
              ih rest hrest s2 (hsegs ▸ List.mem_cons_self _ _)
            have hxs2 : matchPH (x :: s2) = none := by
              cases hx : matchPH (x :: s2) with
              | none => rfl
              | some r =>
                obtain ⟨w, hw⟩ := segsF_head_ext fuel rest s2 ss2 hsegs
                have hext : matchPH ((x :: s2) ++ w) = some (r ++ w) :=
                  matchPH_append hx
                rw [List.cons_append, hw, hm] at hext
                cases hext
            rw [containsPH, hxs2, hs2]
            rfl
          · exact ih rest hrest s (hsegs ▸ List.mem_cons_of_mem _ h)

theorem render_of_no_match (c : List Char) :
    ∀ (fuel : Nat) (l : List Char), containsPH l = false →
      render c fuel l = l := by
  intro fuel
  induction fuel with
  | zero => intro l _; rfl
  | succ fuel ih =>
    intro l hl
    cases l with
    | nil => rfl
    | cons x rest =>
      rw [containsPH] at hl
      simp at hl
      have hm : matchPH (x :: rest) = none :=
        Option.not_isSome_iff_eq_none.1 (by simp [hl.1])
      rw [render_succ_none hm, ih rest hl.2]

/-- C1 counterexample: the claim that the rendered result contains zero
remaining placeholder occurrences is false.  Rendering the template
`{content-placeholder}` with the content equal to that same placeholder
text produces an output that still contains a placeholder occurrence. -/
theorem claim_C1_counterexample :
    containsPH (renderTemplate
      [lb, lb, 'c', 'o', 'n', 't', 'e', 'n', 't', rb, rb]
      [lb, lb, 'c', 'o', 'n', 't', 'e', 'n', 't', rb, rb]) = true := by
  decide

/-- C1 (amended): rendering replaces every case-insensitive placeholder
occurrence found in the left-to-right scan — the output is exactly the
non-matching segments of the template joined by the content verbatim, and
no segment contains a placeholder occurrence.  In particular a template
with no placeholder renders to itself.  However, the output can contain
new placeholder occurrences assembled from the substituted content (for
example when the content itself contains the placeholder), so the claimed
"zero remaining placeholder occurrences" does not hold in general. -/
theorem claim_C1_render_decomposition (t c : List Char) :
    renderTemplate t c = joinSegs c (segs t) ∧
      (∀ s ∈ segs t, containsPH s = false) ∧
      (containsPH t = false → renderTemplate t c = t) :=
  ⟨render_eq_joinSegs c t.length t,
    segsF_noPH t.length t (le_refl _),
    fun h => render_of_no_match c t.length t h⟩

/-- C1 witness: the decomposition instantiated at a concrete template
that contains one placeholder. -/
theorem claim_C1_witness :
    renderTemplate ('A' :: lb :: lb :: 'c' :: 'o' :: 'n' :: 't' :: 'e'
          :: 'n' :: 't' :: rb :: rb :: ['B']) "xyz".data
        = joinSegs "xyz".data (segs ('A' :: lb :: lb :: 'c' :: 'o' :: 'n'
          :: 't' :: 'e' :: 'n' :: 't' :: rb :: rb :: ['B'])) ∧
      (∀ s ∈ segs ('A' :: lb :: lb :: 'c' :: 'o' :: 'n' :: 't' :: 'e'
          :: 'n' :: 't' :: rb :: rb :: ['B']), containsPH s = false) ∧
      (containsPH ('A' :: lb :: lb :: 'c' :: 'o' :: 'n' :: 't' :: 'e'
          :: 'n' :: 't' :: rb :: rb :: ['B']) = false →
        renderTemplate ('A' :: lb :: lb :: 'c' :: 'o' :: 'n' :: 't' :: 'e'
          :: 'n' :: 't' :: rb :: rb :: ['B']) "xyz".data
          = ('A' :: lb :: lb :: 'c' :: 'o' :: 'n' :: 't' :: 'e' :: 'n'
            :: 't' :: rb :: rb :: ['B'])) :=
  claim_C1_render_decomposition _ _

/-! ### Path handling

`generateTitle` computes the rename target with `path.parse` from the
`path-browserify` dependency (posix rules) and the host's `normalizePath`.
-/

/-- The result of `path.parse`. -/
structure ParsedPath where
  root : List Char
  dir : List Char
  base : List Char
  ext : List Char
  name : List Char
deriving DecidableEq

/-- Split a reversed base name into reversed extension and reversed name,
following `path.parse` of path-browserify: the extension starts at the
last dot, except when the base has no dot, when its only dot is the
leading character, or when the base is exactly `..`. -/
def splitBase (baseRev : List Char) : List Char × List Char :=
  let extRevPart := baseRev.takeWhile (fun c => c != '.')
  let afterDot := baseRev.dropWhile (fun c => c != '.')
  match afterDot with
  | [] => ([], baseRev)
  | _ :: nameRev =>
    if nameRev = [] then ([], baseRev)
    else if baseRev = ['.', '.'] then ([], baseRev)
    else (extRevPart ++ ['.'], nameRev)

/-- `path.parse` for posix paths (path-browserify), as applied by
`generateTitle` in src/main.ts to `file.path`. -/
def posixParse (p : List Char) : ParsedPath :=
  if p = [] then ⟨[], [], [], [], []⟩
  else
    let rootPart : List Char := if p.head? = some '/' then ['/'] else []
    let region := if p.head? = some '/' then p.drop 1 else p
    let afterSlashes := region.reverse.dropWhile (fun c => c == '/')
    if afterSlashes = [] then ⟨rootPart, rootPart, [], [], []⟩
    else
      let baseRev := afterSlashes.takeWhile (fun c => c != '/')
      let restRev := afterSlashes.dropWhile (fun c => c != '/')
      let dir := match restRev with
        | [] => rootPart
        | _ :: restRev2 => rootPart ++ restRev2.reverse
      let en := splitBase baseRev
      ⟨rootPart, dir, baseRev.reverse, en.1.reverse, en.2.reverse⟩

/-- Modelled from the spec: the host's `normalizePath` (Obsidian) is not
part of this repository.  The spec only says the target is "normalized to
the host's path convention"; the host's documented normalization replaces
backslashes with forward slashes, collapses runs of slashes, and strips
leading and trailing slashes. -/
def normalizePath (p : List Char) : List Char :=
  dropEnds (fun c => c == '/')
    (collapseRuns (fun c => c == '/') '/'
      (p.map (fun c => if c == bsl then '/' else c)))

/-- The rename-target computation of `generateTitle` in src/main.ts:
`normalizePath(`dir/title ++ ext`)` built from `path.parse(file.path)`. -/
def computeNewPath (filePath title : List Char) : List Char :=
  let currentPath := posixParse filePath
  normalizePath (currentPath.dir ++ '/' :: (title ++ currentPath.ext))

/-! ### Generic list lemmas used for the path theorems -/

theorem map_replace_id {g : Char → Bool} {rep : Char} {l : List Char}
    (h : ∀ c ∈ l, g c = false) :
    l.map (fun c => if g c then rep else c) = l := by
  induction l with
  | nil => rfl
  | cons a t ih =>
    simp only [List.map_cons]
    rw [if_neg (by simp [h a (List.mem_cons_self _ _)]),
      ih (fun c hc => h c (List.mem_cons_of_mem _ hc))]

theorem takeWhile_append_all {g : Char → Bool} {u v : List Char}
    (h : ∀ c ∈ u, g c = true) :
    (u ++ v).takeWhile g = u ++ v.takeWhile g := by
  induction u with
  | nil => rfl
  | cons a t ih =>
    rw [List.cons_append, List.takeWhile_cons_of_pos
      (h a (List.mem_cons_self _ _)),
      ih (fun c hc => h c (List.mem_cons_of_mem _ hc)), List.cons_append]

theorem dropWhile_append_all {g : Char → Bool} {u v : List Char}
    (h : ∀ c ∈ u, g c = true) :
    (u ++ v).dropWhile g = v.dropWhile g := by
  induction u with
  | nil => rfl
  | cons a t ih =>
    rw [List.cons_append, List.dropWhile_cons_of_pos
      (h a (List.mem_cons_self _ _)),
      ih (fun c hc => h c (List.mem_cons_of_mem _ hc))]

theorem all_not_noTwoAdj {g : Char → Bool} {l : List Char}
    (h : ∀ c ∈ l, g c = false) : noTwoAdjacent g l = true := by
  induction l with
  | nil => rfl
  | cons a t ih =>
    rw [noTwoAdj_cons_of_not (h a (List.mem_cons_self _ _))]
    exact ih (fun c hc => h c (List.mem_cons_of_mem _ hc))

theorem noTwoAdj_append {g : Char → Bool} :
    ∀ {u v : List Char}, noTwoAdjacent g u = true →
      noTwoAdjacent g v = true → headNotIn g u.reverse = true →
      noTwoAdjacent g (u ++ v) = true := by
  intro u
  induction u with
  | nil => intro v _ hv _; exact hv
  | cons a t ih =>
    intro v hu hv hlast
    cases t with
    | nil =>
      have ha : g a = false := by
        have hrev : (a :: ([] : List Char)).reverse = [a] := by simp
        rw [hrev] at hlast
        simpa [headNotIn] using hlast
      rw [List.cons_append, List.nil_append, noTwoAdj_cons_of_not ha]
      exact hv
    | cons b t2 =>
      rw [noTwoAdjacent, Bool.and_eq_true] at hu
      have hlast2 : headNotIn g (b :: t2).reverse = true := by
        have hrev : (a :: b :: t2).reverse = (b :: t2).reverse ++ [a] := by
          simp
        rw [hrev] at hlast
        cases hr : (b :: t2).reverse with
        | nil => simp at hr
        | cons z zs =>
          rw [hr, List.cons_append] at hlast
          simpa [headNotIn] using hlast
      have hmid := ih hu.2 hv hlast2
      rw [List.cons_append] at hmid
      rw [List.cons_append, List.cons_append, noTwoAdjacent,
        Bool.and_eq_true]
      exact ⟨hu.1, hmid⟩

theorem head_append_of_ne_nil {u v : List Char} {a : Char} {t : List Char}
    (h : u = a :: t) : (u ++ v).head? = some a := by
  subst h; rfl

theorem headNotIn_append {g : Char → Bool} {u v : List Char}
    (hu : u ≠ []) (h : headNotIn g u = true) :
    headNotIn g (u ++ v) = true := by
  cases u with
  | nil => exact absurd rfl hu
  | cons a t => simpa [headNotIn] using h

theorem lastNotIn_append {g : Char → Bool} {u v : List Char}
    (hv : v ≠ []) (h : headNotIn g v.reverse = true) :
    headNotIn g (u ++ v).reverse = true := by
  rw [List.reverse_append]
  exact headNotIn_append (by simpa using hv) h

theorem headNotIn_reverse_of_all {g : Char → Bool} {l : List Char}
    (h : ∀ c ∈ l, g c = false) : headNotIn g l.reverse = true := by
  cases hr : l.reverse with
  | nil => rfl
  | cons z zs =>
    have hz : z ∈ l := by
      rw [← List.mem_reverse, hr]
      exact List.mem_cons_self _ _
    simp [headNotIn, h z hz]

/-- `path.parse` on a path of the form `dir ++ "/" ++ base` with a
relative slash-free-headed dir and a nonempty slash-free base: root is
empty, dir and base are recovered exactly. -/
theorem posixParse_append {d b : List Char} (hd : d ≠ [])
    (hdh : headNotIn (fun c => c == '/') d = true)
    (hb : b ≠ []) (hbs : ∀ c ∈ b, (c == '/') = false) :
    posixParse (d ++ '/' :: b) =
      ⟨[], d, b, (splitBase b.reverse).1.reverse,
        (splitBase b.reverse).2.reverse⟩ := by
  obtain ⟨a, d', hd'⟩ : ∃ a d', d = a :: d' := by
    cases d with
    | nil => exact absurd rfl hd
    | cons a d' => exact ⟨a, d', rfl⟩
  obtain ⟨b', x, hb'⟩ : ∃ b' x, b = b' ++ [x] := by
    rcases List.eq_nil_or_concat b with h | ⟨b', x, h⟩
    · exact absurd h hb
    · exact ⟨b', x, by rw [h, List.concat_eq_append]⟩
  have hne : d ++ '/' :: b ≠ [] := by simp [hd']
  have hhead : (d ++ '/' :: b).head? = some a := by simp [hd']
  have hahd : (a == '/') = false := by
    have h2 := hdh
    rw [hd'] at h2
    simpa [headNotIn] using h2
  have hnabs : ¬(d ++ '/' :: b).head? = some '/' := by
    rw [hhead]
    simpa using hahd
  have hrevb : b.reverse = x :: b'.reverse := by simp [hb']
  have hx : (x == '/') = false := hbs x (by simp [hb'])
  have hrev : (d ++ '/' :: b).reverse
      = x :: (b'.reverse ++ '/' :: d.reverse) := by
    simp [hb']
  have hafter : (d ++ '/' :: b).reverse.dropWhile (fun c => c == '/')
      = b.reverse ++ '/' :: d.reverse := by
    rw [hrev, dropWhile_eq_self_of_head (f := fun c => c == '/') hx]
    simp [hrevb]
  have hallb : ∀ c ∈ b.reverse, (fun c => c != '/') c = true := by
    intro c hc
    have := hbs c (List.mem_reverse.1 hc)
    simp [bne, this]
  have hbaseRev : (b.reverse ++ '/' :: d.reverse).takeWhile
      (fun c => c != '/') = b.reverse := by
    rw [takeWhile_append_all hallb, List.takeWhile_cons_of_neg (by simp)]
    simp
  have hrestRev : (b.reverse ++ '/' :: d.reverse).dropWhile
      (fun c => c != '/') = '/' :: d.reverse := by
    rw [dropWhile_append_all hallb, List.dropWhile_cons_of_neg (by simp)]
  have hafterne : (b.reverse ++ '/' :: d.reverse) ≠ [] := by simp
  simp only [posixParse]
  rw [if_neg hne]
  simp only [if_neg hnabs]
  simp only [hafter]
  rw [if_neg hafterne]
  simp only [hbaseRev, hrestRev]
  simp

/-- The extension split of a base of the form `name ++ "." ++ ext2` with a
nonempty name and a nonempty dot-free ext2: the extension starts at the
final dot. -/
theorem splitBase_ext {t e2 : List Char} (ht : t ≠ []) (he2 : e2 ≠ [])
    (hdot : ∀ c ∈ e2, (c == '.') = false) :
    splitBase (t ++ '.' :: e2).reverse
      = (e2.reverse ++ ['.'], t.reverse) := by
  have hrev : (t ++ '.' :: e2).reverse = e2.reverse ++ '.' :: t.reverse := by
    simp
  have halle : ∀ c ∈ e2.reverse, (fun c => c != '.') c = true := by
    intro c hc
    have := hdot c (List.mem_reverse.1 hc)
    simp [bne, this]
  have htake : (e2.reverse ++ '.' :: t.reverse).takeWhile
      (fun c => c != '.') = e2.reverse := by
    rw [takeWhile_append_all halle, List.takeWhile_cons_of_neg (by simp)]
    simp
  have hdrop : (e2.reverse ++ '.' :: t.reverse).dropWhile
      (fun c => c != '.') = '.' :: t.reverse := by
    rw [dropWhile_append_all halle, List.dropWhile_cons_of_neg (by simp)]
  have htrev : t.reverse ≠ [] := by simpa using ht
  have hlen : (t ++ '.' :: e2).reverse ≠ ['.', '.'] := by
    intro hcontra
    have := congrArg List.length hcontra
    simp at this
    obtain ⟨c2, e2', he2'⟩ : ∃ c2 e2', e2 = c2 :: e2' := by
      cases e2 with
      | nil => exact absurd rfl he2
      | cons c2 e2' => exact ⟨c2, e2', rfl⟩
    obtain ⟨c1, t', ht'⟩ : ∃ c1 t', t = c1 :: t' := by
      cases t with
      | nil => exact absurd rfl ht
      | cons c1 t' => exact ⟨c1, t', rfl⟩
    rw [he2', ht'] at this
    simp at this
    omega
  simp only [splitBase, hrev, htake, hdrop]
  rw [if_neg htrev]
  rw [← hrev]
  rw [if_neg hlen]

/-- `normalizePath` is the identity on already-normal paths: no
backslashes, no doubled slashes, and no slash at either end. -/
theorem normalizePath_id {p : List Char}
    (hnb : ∀ c ∈ p, (c == bsl) = false)
    (hadj : noTwoAdjacent (fun c => c == '/') p = true)
    (hh : headNotIn (fun c => c == '/') p = true)
    (hl : headNotIn (fun c => c == '/') p.reverse = true) :
    normalizePath p = p := by
  unfold normalizePath
  rw [map_replace_id hnb,
    collapseRuns_id hadj (fun c _ hc => by simpa using hc),
    dropEnds_id hh hl]

theorem headNotIn_of_all {g : Char → Bool} {l : List Char}
    (h : ∀ c ∈ l, g c = false) : headNotIn g l = true := by
  cases l with
  | nil => rfl
  | cons a t => simp [headNotIn, h a (List.mem_cons_self _ _)]

theorem sanitize_no_illegal (raw : List Char) :
    ∀ c ∈ sanitize raw, isIllegalFileNameChar c = false := by
  unfold sanitize
  exact removeInvalid_no_illegal _

theorem not_illegal_not_slash {c : Char}
    (h : isIllegalFileNameChar c = false) : (c == '/') = false := by
  cases hc : c == '/' with
  | false => rfl
  | true =>
    have hc2 : c = '/' := by simpa using hc
    rw [hc2, show isIllegalFileNameChar '/' = true from by decide] at h
    cases h

theorem not_illegal_not_bsl {c : Char}
    (h : isIllegalFileNameChar c = false) : (c == bsl) = false := by
  cases hc : c == bsl with
  | false => rfl
  | true =>
    have hc2 : c = bsl := by simpa using hc
    rw [hc2, show isIllegalFileNameChar bsl = true from by decide] at h
    cases h

/-- C6: for a document at a well-formed relative path
`dir ++ "/" ++ name ++ "." ++ ext2` (nonempty normal dir, nonempty
slash-free name, nonempty dot- and slash-free extension body) and any raw
provider output whose sanitized form is nonempty, the computed rename
target is exactly `dir ++ "/" ++ sanitizedTitle ++ "." ++ ext2`: the
directory and extension are kept and only the base name is replaced by the
sanitized title, as witnessed by parsing the target back. -/
theorem claim_C6_rename_target (d n e2 raw : List Char)
    (hd : d ≠ [])
    (hdnb : ∀ c ∈ d, (c == bsl) = false)
    (hdh : headNotIn (fun c => c == '/') d = true)
    (hdl : headNotIn (fun c => c == '/') d.reverse = true)
    (hdadj : noTwoAdjacent (fun c => c == '/') d = true)
    (hn : n ≠ []) (hns : ∀ c ∈ n, (c == '/') = false)
    (he2 : e2 ≠ [])
    (he2c : ∀ c ∈ e2, (c == '/') = false ∧ (c == '.') = false ∧
      (c == bsl) = false)
    (ht : sanitize raw ≠ []) :
    computeNewPath (d ++ '/' :: (n ++ '.' :: e2)) (sanitize raw)
        = d ++ '/' :: (sanitize raw ++ '.' :: e2) ∧
      posixParse (d ++ '/' :: (sanitize raw ++ '.' :: e2))
        = ⟨[], d, sanitize raw ++ '.' :: e2, '.' :: e2, sanitize raw⟩ := by
  set t := sanitize raw with htdef
  have hts : ∀ c ∈ t, (c == '/') = false :=
    fun c hc => not_illegal_not_slash (sanitize_no_illegal raw c hc)
  have htb : ∀ c ∈ t, (c == bsl) = false :=
    fun c hc => not_illegal_not_bsl (sanitize_no_illegal raw c hc)
  -- parse of the original document path
  have hbold : ∀ c ∈ (n ++ '.' :: e2), (c == '/') = false := by
    intro c hc
    rcases List.mem_append.1 hc with h | h
    · exact hns c h
    · rcases List.mem_cons.1 h with h | h
      · rw [h]; decide
      · exact (he2c c h).1
  have hboldne : (n ++ '.' :: e2) ≠ [] := by simp
  have hparseOld := posixParse_append hd hdh hboldne hbold
  have hsplitOld := splitBase_ext hn he2 (fun c hc => (he2c c hc).2.1)
  -- parse of the rename target
  have hbnew : ∀ c ∈ (t ++ '.' :: e2), (c == '/') = false := by
    intro c hc
    rcases List.mem_append.1 hc with h | h
    · exact hts c h
    · rcases List.mem_cons.1 h with h | h
      · rw [h]; decide
      · exact (he2c c h).1
  have htne : t ≠ [] := ht
  have hbnewne : (t ++ '.' :: e2) ≠ [] := by simp
  have hparseNew := posixParse_append hd hdh hbnewne hbnew
  have hsplitNew := splitBase_ext htne he2 (fun c hc => (he2c c hc).2.1)
  have hparseNew2 : posixParse (d ++ '/' :: (t ++ '.' :: e2))
      = ⟨[], d, t ++ '.' :: e2, '.' :: e2, t⟩ := by
    rw [hparseNew, hsplitNew]
    simp
  -- normalizePath is the identity on the target
  have hnormal : normalizePath (d ++ '/' :: (t ++ '.' :: e2))
      = d ++ '/' :: (t ++ '.' :: e2) := by
    apply normalizePath_id
    · intro c hc
      simp at hc
      rcases hc with h | h | h | h | h
      · exact hdnb c h
      · rw [h]; decide
      · exact htb c h
      · rw [h]; decide
      · exact (he2c c h).2.2
    · apply noTwoAdj_append hdadj ?hv hdl
      apply noTwoAdj_cons_of_head_not
      · apply all_not_noTwoAdj
        intro c hc
        rcases List.mem_append.1 hc with h | h
        · exact hts c h
        · rcases List.mem_cons.1 h with h | h
          · rw [h]; decide
          · exact (he2c c h).1
      · exact headNotIn_append htne (headNotIn_of_all hts)
    · exact headNotIn_append hd hdh
    · have hsplit : d ++ '/' :: (t ++ '.' :: e2)
          = (d ++ '/' :: (t ++ ['.'])) ++ e2 := by simp
      rw [hsplit]
      exact lastNotIn_append he2
        (headNotIn_reverse_of_all (fun c hc => (he2c c hc).1))
  constructor
  · show normalizePath ((posixParse (d ++ '/' :: (n ++ '.' :: e2))).dir
        ++ '/' :: (t ++ (posixParse (d ++ '/' :: (n ++ '.' :: e2))).ext))
      = d ++ '/' :: (t ++ '.' :: e2)
    rw [hparseOld, hsplitOld]
    simp only []
    have hext : (e2.reverse ++ ['.']).reverse = '.' :: e2 := by simp
    rw [hext] at *
    exact hnormal
  · exact hparseNew2

/-- C6 witness: the concrete end-to-end example from the claim.  The raw
provider output is `"Great Ideas"` including the straight double quotes;
the sanitized title is `Great Ideas`; the document path is
`folder/old-name.md`; the computed rename target is
`folder/Great Ideas.md`. -/
theorem claim_C6_witness :
    sanitize (dq :: ("Great Ideas".data ++ [dq])) = "Great Ideas".data ∧
      computeNewPath
          ("folder".data ++ '/' :: ("old-name".data ++ '.' :: "md".data))
          (sanitize (dq :: ("Great Ideas".data ++ [dq])))
        = "folder".data ++ '/' ::
            (sanitize (dq :: ("Great Ideas".data ++ [dq]))
              ++ '.' :: "md".data) ∧
      posixParse ("folder".data ++ '/' ::
          (sanitize (dq :: ("Great Ideas".data ++ [dq]))
            ++ '.' :: "md".data))
        = ⟨[], "folder".data,
            sanitize (dq :: ("Great Ideas".data ++ [dq]))
              ++ '.' :: "md".data,
            '.' :: "md".data,
            sanitize (dq :: ("Great Ideas".data ++ [dq]))⟩ :=
  ⟨by decide,
    claim_C6_rename_target "folder".data "old-name".data "md".data
      (dq :: ("Great Ideas".data ++ [dq]))
      (by decide) (by decide) (by decide) (by decide) (by decide)
      (by decide) (by decide) (by decide) (by decide) (by decide)⟩

/-! ### JSON values and the Variant B (Fireworks) response extraction

JSON values are modelled by a single inductive with cons-encoded arrays
and objects (so that every operation is structurally recursive and
kernel-computable).  Values produced by `JSON.parse` always have
array-shaped `arrCons` tails and object-shaped `objCons` tails, and no
duplicate object keys (on duplicates `JSON.parse` keeps the last, so the
parsed object has distinct keys); the operations below are total on all
values regardless. -/

inductive Json where
  | null : Json
  | bool (b : Bool) : Json
  | num (n : Int) : Json
  | str (s : String) : Json
  | arrNil : Json
  | arrCons (hd tl : Json) : Json
  | objNil : Json
  | objCons (key : String) (val : Json) (tl : Json) : Json
deriving DecidableEq

/-- JavaScript string coercion (`.toString()` / `String(...)`) of a JSON
value: strings are themselves, numbers and booleans print, arrays join
their elements with commas (null elements print as empty), and objects
print as `[object Object]`. -/
def jsToString : Json → List Char
  | .null => "null".data
  | .bool true => "true".data
  | .bool false => "false".data
  | .num n => (toString n).data
  | .str s => s.data
  | .arrNil => []
  | .arrCons x rest =>
    (match x with
      | Json.null => []
      | _ => jsToString x) ++
    (match rest with
      | Json.arrNil => []
      | _ => ',' :: jsToString rest)
  | .objNil => "[object Object]".data
  | .objCons _ _ _ => "[object Object]".data

/-- Own-property lookup on an object value. -/
def jsGetField : Json → String → Option Json
  | .objCons k v tl, key => if k == key then some v else jsGetField tl key
  | _, _ => none

/-- JavaScript property access `v.k` for a non-nullish `v`: objects look
up the key; every other value has no such own property (undefined). -/
def jsGetProp (v : Json) (k : String) : Option Json :=
  match v with
  | .objCons _ _ _ => jsGetField v k
  | _ => none

/-- JavaScript index access `v[0]` for a non-nullish `v`: arrays give the
first element, strings give their first character (as a string), objects
look up the key `"0"`. -/
def jsIndex0 (v : Json) : Option Json :=
  match v with
  | .arrCons x _ => some x
  | .str s =>
    match s.data with
    | [] => none
    | c :: _ => some (.str (String.mk [c]))
  | .objCons _ _ _ => jsGetField v "0"
  | _ => none

/-- One step of an optional chain `?.k`: undefined or null short-circuits. -/
def jsChainProp (o : Option Json) (k : String) : Option Json :=
  match o with
  | none => none
  | some Json.null => none
  | some v => jsGetProp v k

/-- One step of an optional chain `?.[0]`. -/
def jsChainIndex0 (o : Option Json) : Option Json :=
  match o with
  | none => none
  | some Json.null => none
  | some v => jsIndex0 v

/-- The last element of an array value (the code indexes
`output[output.length - 1]`). -/
def jsArrLast? : Json → Option Json
  | .arrCons x Json.arrNil => some x
  | .arrCons _ (Json.arrCons y tl) => jsArrLast? (Json.arrCons y tl)
  | .arrCons x _ => some x
  | _ => none

/-- First stage of the response extraction of `callFireworks`
(src/main.ts): `(data.output_text ?? '').toString().trim()` — for a
NON-NULL body.  `data.output_text` is a plain (non-optional) property
access: on a null body it throws a TypeError before anything else; that
path is handled in `extractFireworks`, which only calls this stage on
non-null values, for which the access merely yields undefined/null and
`??` supplies the empty string. -/
def extractOutText (data : Json) : List Char :=
  match jsGetProp data "output_text" with
  | none => []
  | some Json.null => []
  | some v => jsTrim (jsToString v)

/-- The nested read on the last output element:
`last?.content?.[0]?.text?.toString()?.trim() ?? ''`. -/
def extractLastText (last : Json) : List Char :=
  match jsChainProp (jsChainIndex0
      (jsChainProp (some last) "content")) "text" with
  | none => []
  | some Json.null => []
  | some tv => jsTrim (jsToString tv)

/-- The fallback stage of the response extraction:
`if (Array.isArray(data.output) && data.output.length > 0) { const last =
data.output[data.output.length - 1]; out = last?....trim() ?? ''; }`.
When the array is absent, not an array, or empty, `out` keeps its previous
(empty) value.  Like `extractOutText`, this stage is only reached for a
non-null body (a null body already threw at the `data.output_text`
access), so its plain `data.output` access cannot throw either. -/
def extractFallback (data : Json) : List Char :=
  match jsGetProp data "output" with
  | some (Json.arrCons x tl) =>
    match jsArrLast? (Json.arrCons x tl) with
    | none => []
    | some last => extractLastText last
  | _ => []

/-- The extraction result for a non-null body: prefer the consolidated
`output_text`; if it is empty, dig into the `output` array.  For non-null
bodies this is total: the plain `data.output_text` and `data.output`
accesses yield undefined on any non-null value, and the inner try/catch
never fires because its body is an optional chain, which cannot throw. -/
def extractFireworksNonNull (data : Json) : List Char :=
  let out := extractOutText data
  if out = [] then extractFallback data else out

/-- The display string `${err}` of the TypeError thrown by the plain
property access `data.output_text` (src/main.ts:339) when `res.json()`
resolves to JSON `null`, with the message text as rendered by the host
application's V8 (Electron) engine. -/
def nullBodyTypeError : String :=
  "TypeError: Cannot read properties of null (reading " ++ String.mk [sq]
    ++ "output_text" ++ String.mk [sq] ++ ")"

/-- The response extraction of `callFireworks` in src/main.ts.  The first
step, `(data.output_text ?? '').toString().trim()`, performs a PLAIN
property access on `data`, outside the try/catch: when the 200-status
body is the JSON value `null`, this access throws a TypeError, which
propagates out of `callFireworks`.  Every other JSON body shape is
handled totally. -/
def extractFireworks (data : Json) : Except String (List Char) :=
  match data with
  | Json.null => Except.error nullBodyTypeError
  | _ => Except.ok (extractFireworksNonNull data)

theorem extractFireworks_of_ne_null {data : Json} (h : data ≠ Json.null) :
    extractFireworks data = Except.ok (extractFireworksNonNull data) := by
  cases data with
  | null => exact absurd rfl h
  | bool b => rfl
  | num n => rfl
  | str s => rfl
  | arrNil => rfl
  | arrCons x tl => rfl
  | objNil => rfl
  | objCons k v tl => rfl

/-- The top-level consolidated text field is absent or null. -/
def outputTextUnusable (data : Json) : Bool :=
  match jsGetProp data "output_text" with
  | none => true
  | some Json.null => true
  | _ => false

/-- The fallback output array is absent, not an array, or empty. -/
def outputArrayUnusable (data : Json) : Bool :=
  match jsGetProp data "output" with
  | some (Json.arrCons _ _) => false
  | _ => true

/-- The nested content text of an output element is absent or null. -/
def lastTextUnusable (last : Json) : Bool :=
  match jsChainProp (jsChainIndex0
      (jsChainProp (some last) "content")) "text" with
  | none => true
  | some Json.null => true
  | _ => false

theorem extractOutText_unusable {data : Json}
    (h : outputTextUnusable data = true) : extractOutText data = [] := by
  unfold outputTextUnusable at h
  unfold extractOutText
  cases ho : jsGetProp data "output_text" with
  | none => rfl
  | some v => cases v <;> simp_all

theorem extractLastText_unusable {last : Json}
    (h : lastTextUnusable last = true) : extractLastText last = [] := by
  unfold lastTextUnusable at h
  unfold extractLastText
  cases hc : jsChainProp (jsChainIndex0
      (jsChainProp (some last) "content")) "text" with
  | none => rfl
  | some v => cases v <;> simp_all

theorem extractFallback_unusable {data : Json}
    (h : outputArrayUnusable data = true) : extractFallback data = [] := by
  unfold outputArrayUnusable at h
  unfold extractFallback
  cases ha : jsGetProp data "output" with
  | none => rfl
  | some v => cases v <;> simp_all

theorem extractFireworks_empty_of_unusable {data : Json}
    (h1 : outputTextUnusable data = true)
    (h2 : outputArrayUnusable data = true) :
    extractFireworksNonNull data = [] := by
  unfold extractFireworksNonNull
  rw [extractOutText_unusable h1, if_pos rfl, extractFallback_unusable h2]

theorem extractFireworks_empty_of_last_unusable {data outv last : Json}
    (h1 : outputTextUnusable data = true)
    (ha : jsGetProp data "output" = some outv)
    (hlast : jsArrLast? outv = some last)
    (h3 : lastTextUnusable last = true) :
    extractFireworksNonNull data = [] := by
  unfold extractFireworksNonNull
  rw [extractOutText_unusable h1, if_pos rfl]
  cases outv with
  | arrCons x tl =>
    simp only [extractFallback, ha, hlast]
    exact extractLastText_unusable h3
  | null => simp [extractFallback, ha]
  | bool b => simp [extractFallback, ha]
  | num n => simp [extractFallback, ha]
  | str s => simp [extractFallback, ha]
  | arrNil => simp [extractFallback, ha]
  | objNil => simp [extractFallback, ha]
  | objCons k v tl => simp [extractFallback, ha]

/-! ### Settings, provider clients, and the orchestrator (src/main.ts) -/

/-- The `Provider` union type from src/main.ts. -/
inductive Provider where
  | openai : Provider
  | fireworks : Provider
deriving DecidableEq

/-- `TitleGeneratorSettings` from src/main.ts.  Every field is always
present (defaults are merged on load); the empty string means unset. -/
structure TitleGeneratorSettings where
  provider : Provider
  openAiApiKey : List Char
  openAiModel : List Char
  fireworksApiKey : List Char
  fireworksModel : List Char
  customPrompt : List Char
deriving DecidableEq

/-- `DEFAULT_PROMPT` from src/main.ts. -/
def DEFAULT_PROMPT : List Char :=
  ("Write a concise, descriptive Title Case note title based on the content below.\nRules:\n- Aim for 4–8 words\n- No quotes or trailing punctuation\n- No emojis\n- Keep it filename-safe\n\nContent:\n\x7b\x7bcontent\x7d\x7d\n\nReturn only the title.").data

/-- `DEFAULT_SETTINGS` from src/main.ts. -/
def DEFAULT_SETTINGS : TitleGeneratorSettings :=
  { provider := Provider.openai
    openAiApiKey := []
    openAiModel := "gpt-5-nano-2025-08-07".data
    fireworksApiKey := []
    fireworksModel := []
    customPrompt := DEFAULT_PROMPT }

/-- Whether the pattern is a prefix of the subject
(`String.prototype.startsWith`). -/
def startsWithCh : List Char → List Char → Bool
  | [], _ => true
  | _ :: _, [] => false
  | p :: ps, c :: cs => p == c && startsWithCh ps cs

/-- `String.prototype.includes`: the pattern occurs somewhere in the
subject. -/
def containsSub : List Char → List Char → Bool
  | l, sub =>
    startsWithCh sub l ||
      match l with
      | [] => false
      | _ :: rest => containsSub rest sub

/-- `useCompletionsEndpoint` from src/main.ts: the heuristic that routes
classic/instruct/text models to the Completions endpoint.  JavaScript
`toLowerCase` is modelled by `Char.toLower` (they agree on the ASCII
letters the substring markers consist of). -/
def useCompletionsEndpoint (model : List Char) : Bool :=
  if model = [] then false
  else
    let lower := model.map Char.toLower
    containsSub lower "instruct".data ||
      startsWithCh "text-".data lower ||
      containsSub lower "davinci".data ||
      containsSub lower "curie".data ||
      containsSub lower "babbage".data ||
      containsSub lower "ada".data

/-- The fixed fallback model of `callOpenAI` in src/main.ts. -/
def defaultOpenAiModel : List Char := "gpt-5-nano-2025-08-07".data

/-- `this.settings.openAiModel?.trim() || 'gpt-5-nano-2025-08-07'` from
`callOpenAI` in src/main.ts. -/
def effectiveOpenAiModel (s : TitleGeneratorSettings) : List Char :=
  if jsTrim s.openAiModel = [] then defaultOpenAiModel
  else jsTrim s.openAiModel

/-- The two OpenAI request shapes. -/
inductive OpenAiEndpoint where
  | completions : OpenAiEndpoint
  | chat : OpenAiEndpoint
deriving DecidableEq

/-- Which endpoint `callOpenAI` selects for the given settings. -/
def openAiEndpointFor (s : TitleGeneratorSettings) : OpenAiEndpoint :=
  if useCompletionsEndpoint (effectiveOpenAiModel s) then
    OpenAiEndpoint.completions
  else OpenAiEndpoint.chat

/-- What the host network would answer to the single OpenAI SDK call on
each endpoint: an SDK-level rejection (carrying its display string), or
the extracted first-choice text (`response.choices?.[0]?.text`
respectively `...message?.content`), which may be absent. -/
structure OpenAiEnv where
  completionsResult : Except String (Option (List Char))
  chatResult : Except String (Option (List Char))

/-- `callOpenAI` from src/main.ts: select the endpoint from the effective
model, make one SDK call, and trim the extracted text (absent text
defaults to the empty string).  The Bool records that the SDK call was
made. -/
def callOpenAI (s : TitleGeneratorSettings) (_prompt : List Char)
    (env : OpenAiEnv) : Except String (List Char) × Bool :=
  match openAiEndpointFor s with
  | OpenAiEndpoint.completions =>
    match env.completionsResult with
    | .error e => (.error e, true)
    | .ok t => (.ok (jsTrim (t.getD [])), true)
  | OpenAiEndpoint.chat =>
    match env.chatResult with
    | .error e => (.error e, true)
    | .ok t => (.ok (jsTrim (t.getD [])), true)

/-- The JSON body of the Fireworks request (`body` in `callFireworks`,
src/main.ts). -/
structure FireworksRequestBody where
  model : List Char
  input : List Char
  max_output_tokens : Nat
  /-- the sampling temperature `0.6`, held exactly in tenths (the
  floating-point representation is outside the embedding) -/
  temperatureTenths : Nat
  store : Bool
deriving DecidableEq

/-- The request body `callFireworks` builds: `{ model, input: prompt,
max_output_tokens: 50, temperature: 0.6, store: false }`. -/
def fireworksBody (model prompt : List Char) : FireworksRequestBody :=
  { model := model
    input := prompt
    max_output_tokens := 50
    temperatureTenths := 6
    store := false }

/-- The settled `fetch` response: HTTP status, and the results of reading
the body as text (`res.text()`, may reject) and as JSON (`res.json()`,
may reject). -/
structure FetchResponse where
  ok : Bool
  status : Nat
  textResult : Except String (List Char)
  jsonResult : Except String Json

/-- What the network does with the single Fireworks POST (a rejection of
`fetch` itself, or a settled response). -/
structure FireworksEnv where
  fetch : FireworksRequestBody → Except String FetchResponse

/-- Error message of `callFireworks` when the model is unset. -/
def fireworksModelRequiredMsg : String := "Fireworks model is required."

/-- Error message of `callFireworks` when the API key is unset. -/
def fireworksKeyRequiredMsg : String := "Fireworks API key is required."

/-- Error message thrown by `generateTitle` when the OpenAI key is unset. -/
def openAiKeyMsg : String := "Please set your OpenAI API key in the settings."

/-- Error message thrown by `generateTitle` on an empty sanitized title. -/
def emptyTitleMsg : String := "Model returned an empty title."

/-- JavaScript template-string rendering `${err}` of an error value
constructed by `new Error(msg)`. -/
def jsErrorString (msg : String) : String := "Error: " ++ msg

/-- `callFireworks` from src/main.ts.  Returns the call result together
with the request body that was posted (`none` when the configuration
checks threw before any network request was made). -/
def callFireworks (s : TitleGeneratorSettings) (prompt : List Char)
    (env : FireworksEnv) :
    Except String (List Char) × Option FireworksRequestBody :=
  if jsTrim s.fireworksModel = [] then
    (.error (jsErrorString fireworksModelRequiredMsg), none)
  else if jsTrim s.fireworksApiKey = [] then
    (.error (jsErrorString fireworksKeyRequiredMsg), none)
  else
    let body := fireworksBody (jsTrim s.fireworksModel) prompt
    match env.fetch body with
    | .error e => (.error e, some body)
    | .ok res =>
      if res.ok = false then
        let text := match res.textResult with
          | .ok t => t
          | .error _ => []
        (.error (jsErrorString ("Fireworks API error "
          ++ toString res.status ++ ": " ++ String.mk text)), some body)
      else
        match res.jsonResult with
        | .error e => (.error e, some body)
        | .ok data => (extractFireworks data, some body)

/-- One generation's worth of host behaviour. -/
structure HostEnv where
  openAi : OpenAiEnv
  fireworks : FireworksEnv
  renameResult : Except String Unit

/-- The observable outcome of one `generateTitle` run. -/
structure GenResult where
  notices : List String
  renamed : Option (List Char)
  statusRemoved : Bool
  openAiCalled : Bool
  fireworksSent : Option FireworksRequestBody
deriving DecidableEq

/-- `renderPrompt` from src/main.ts:
`(this.settings.customPrompt?.trim() || DEFAULT_PROMPT)
  .replace(/\{\{\s*content\s*\}\}/gi, content)`. -/
def renderPrompt (s : TitleGeneratorSettings) (content : List Char) :
    List Char :=
  let tmpl := if jsTrim s.customPrompt = [] then DEFAULT_PROMPT
    else jsTrim s.customPrompt
  renderTemplate tmpl content

/-- The `try` block of `generateTitle` (src/main.ts): render the prompt,
dispatch on the provider (checking the OpenAI key first on the OpenAI
path), sanitize, reject an empty title, compute the target path, rename.
Returns the new path or the thrown error's display string, together with
the provider-call observations. -/
def generateTitleTry (s : TitleGeneratorSettings) (env : HostEnv)
    (filePath content : List Char) :
    Except String (List Char) × Bool × Option FireworksRequestBody :=
  let prompt := renderPrompt s content
  let step : Except String (List Char) × Bool × Option FireworksRequestBody :=
    match s.provider with
    | Provider.fireworks =>
      let r := callFireworks s prompt env.fireworks
      (r.1, false, r.2)
    | Provider.openai =>
      if s.openAiApiKey = [] then
        (.error (jsErrorString openAiKeyMsg), false, none)
      else
        let r := callOpenAI s prompt env.openAi
        (r.1, r.2, none)
  match step.1 with
  | .error e => (.error e, step.2)
  | .ok raw =>
    let title := removeInvalidFileNameChars (stripSurroundingQuotes raw)
    if title = [] then (.error (jsErrorString emptyTitleMsg), step.2)
    else
      match env.renameResult with
      | .error e => (.error e, step.2)
      | .ok _ => (.ok (computeNewPath filePath title), step.2)

/-- `generateTitle` from src/main.ts: the try block wrapped in `catch`
(log the error and show exactly one `Notice`) and `finally` (remove the
in-progress status item).  The function is total — no error escapes to
the caller. -/
def generateTitle (s : TitleGeneratorSettings) (env : HostEnv)
    (filePath content : List Char) : GenResult :=
  match generateTitleTry s env filePath content with
  | (Except.ok newPath, oa, fw) =>
    { notices := []
      renamed := some newPath
      statusRemoved := true
      openAiCalled := oa
      fireworksSent := fw }
  | (Except.error e, oa, fw) =>
    { notices := ["Unable to generate title:\n\n" ++ e]
      renamed := none
      statusRemoved := true
      openAiCalled := oa
      fireworksSent := fw }

/-! ### Claims C3, C5, C7, C9 -/

/-- C3: every Fireworks request that is actually posted carries the
no-retention flag `store := false`, for every prompt and every settings
record — no configuration can change it. -/
theorem claim_C3_store_false (s : TitleGeneratorSettings)
    (prompt : List Char) (env : FireworksEnv) (b : FireworksRequestBody)
    (h : (callFireworks s prompt env).2 = some b) :
    b.store = false := by
  unfold callFireworks at h
  split at h
  · simp at h
  · split at h
    · simp at h
    · simp only [] at h
      split at h
      · simp at h
        subst h
        rfl
      · split at h
        · simp at h
          subst h
          rfl
        · split at h
          · simp at h
            subst h
            rfl
          · simp at h
            subst h
            rfl

/-- C3 witness settings: Fireworks selected and configured. -/
def fireworksWitnessSettings : TitleGeneratorSettings :=
  { provider := Provider.fireworks
    openAiApiKey := []
    openAiModel := []
    fireworksApiKey := "k".data
    fireworksModel := "m".data
    customPrompt := "p".data }

/-- C3 witness environment: the network refuses the connection (the
request was still posted). -/
def fireworksWitnessEnv : FireworksEnv :=
  ⟨fun _ => Except.error "TypeError: Failed to fetch"⟩

/-- C3 witness: at the concrete configured settings the client posts a
request, and that request has `store = false`. -/
theorem claim_C3_witness :
    (fireworksBody "m".data "p".data).store = false :=
  claim_C3_store_false fireworksWitnessSettings "p".data
    fireworksWitnessEnv _ (by decide)

/-- C5: when the active provider is OpenAI and the API key is the empty
string, `generateTitle` resolves with a single `ConfigurationError`
notice, no provider is invoked (no OpenAI SDK call, no Fireworks
request), nothing is renamed, and the status indicator is removed. -/
theorem claim_C5_openai_key_unset (s : TitleGeneratorSettings)
    (env : HostEnv) (filePath content : List Char)
    (hp : s.provider = Provider.openai)
    (hk : s.openAiApiKey = []) :
    (generateTitle s env filePath content).openAiCalled = false ∧
      (generateTitle s env filePath content).fireworksSent = none ∧
      (generateTitle s env filePath content).notices
        = ["Unable to generate title:\n\n" ++ jsErrorString openAiKeyMsg] ∧
      (generateTitle s env filePath content).renamed = none ∧
      (generateTitle s env filePath content).statusRemoved = true := by
  have htry : generateTitleTry s env filePath content
      = (.error (jsErrorString openAiKeyMsg), false, none) := by
    unfold generateTitleTry
    simp [hp, hk]
  unfold generateTitle
  rw [htry]
  exact ⟨rfl, rfl, rfl, rfl, rfl⟩

/-- C5 witness settings: OpenAI selected, key unset. -/
def openAiUnsetSettings : TitleGeneratorSettings :=
  { provider := Provider.openai
    openAiApiKey := []
    openAiModel := []
    fireworksApiKey := []
    fireworksModel := []
    customPrompt := "p".data }

/-- C5 witness environment: a host whose network and rename would
succeed (and must not be reached). -/
def openAiUnsetEnv : HostEnv :=
  { openAi := ⟨Except.ok (some "T".data), Except.ok (some "T".data)⟩
    fireworks := ⟨fun _ => Except.ok ⟨true, 200, Except.ok [],
      Except.ok Json.objNil⟩⟩
    renameResult := Except.ok () }

/-- C5 witness: the concrete instantiation. -/
theorem claim_C5_witness :
    (generateTitle openAiUnsetSettings openAiUnsetEnv "a.md".data
        "note text".data).openAiCalled = false ∧
      (generateTitle openAiUnsetSettings openAiUnsetEnv "a.md".data
        "note text".data).fireworksSent = none ∧
      (generateTitle openAiUnsetSettings openAiUnsetEnv "a.md".data
        "note text".data).notices
        = ["Unable to generate title:\n\n" ++ jsErrorString openAiKeyMsg] ∧
      (generateTitle openAiUnsetSettings openAiUnsetEnv "a.md".data
        "note text".data).renamed = none ∧
      (generateTitle openAiUnsetSettings openAiUnsetEnv "a.md".data
        "note text".data).statusRemoved = true :=
  claim_C5_openai_key_unset openAiUnsetSettings openAiUnsetEnv
    "a.md".data "note text".data (by rfl) (by rfl)

/-- C7: for every run of `generateTitle` — success, any thrown error kind,
or any host rejection — the in-progress status indicator is removed,
exactly one error notice is emitted on failure and none on success, and
no error propagates (`generateTitle` is a total function into
`GenResult`). -/
theorem claim_C7_cleanup_and_single_notice (s : TitleGeneratorSettings)
    (env : HostEnv) (filePath content : List Char) :
    (generateTitle s env filePath content).statusRemoved = true ∧
      (generateTitle s env filePath content).notices.length
        = (if (generateTitle s env filePath content).renamed.isSome
            then 0 else 1) := by
  unfold generateTitle
  cases htry : generateTitleTry s env filePath content with
  | mk r rest =>
    cases r with
    | ok p => simp
    | error e => simp

/-- C9: whenever the configured OpenAI model trims to the empty string,
`callOpenAI` substitutes the fixed default model
`gpt-5-nano-2025-08-07`, and consequently selects the chat endpoint, not
the legacy completions endpoint. -/
theorem claim_C9_default_model_chat (s : TitleGeneratorSettings)
    (h : jsTrim s.openAiModel = []) :
    effectiveOpenAiModel s = defaultOpenAiModel ∧
      openAiEndpointFor s = OpenAiEndpoint.chat := by
  have heff : effectiveOpenAiModel s = defaultOpenAiModel := by
    unfold effectiveOpenAiModel
    rw [if_pos h]
  refine ⟨heff, ?_⟩
  unfold openAiEndpointFor
  rw [heff]
  rw [if_neg ?hne]
  case hne =>
    rw [show useCompletionsEndpoint defaultOpenAiModel = false from by decide]
    simp

/-- C9 witness settings: a whitespace-only model string. -/
def blankModelSettings : TitleGeneratorSettings :=
  { provider := Provider.openai
    openAiApiKey := "k".data
    openAiModel := "  ".data
    fireworksApiKey := []
    fireworksModel := []
    customPrompt := "p".data }

/-- C9 witness: the concrete instantiation. -/
theorem claim_C9_witness :
    effectiveOpenAiModel blankModelSettings = defaultOpenAiModel ∧
      openAiEndpointFor blankModelSettings = OpenAiEndpoint.chat :=
  claim_C9_default_model_chat blankModelSettings (by decide)

/-! ### Claim C4 -/

/-- C4 counterexample: two concrete successful-status bodies refute the
claim.  A body whose `output[last].content[0].text` is the number `42`
does NOT degrade to the empty string — the code string-coerces it and
returns `42`; and the body that is the JSON value `null` makes the plain
`data.output_text` access (src/main.ts:339, outside the try/catch) throw
a TypeError, so the extraction does not degrade at all but throws. -/
theorem claim_C4_counterexample :
    extractFireworks (Json.objCons "output"
        (Json.arrCons (Json.objCons "content"
          (Json.arrCons (Json.objCons "text" (Json.num 42) Json.objNil)
            Json.arrNil) Json.objNil) Json.arrNil) Json.objNil)
      = Except.ok "42".data ∧
      extractFireworks Json.null = Except.error nullBodyTypeError :=
  ⟨rfl, rfl⟩

/-- C4 (amended): for every NON-NULL JSON body, the Variant B response
extraction is total — no such shape makes it throw — and whenever the
consolidated `output_text` field is missing or null and the `output`
fallback is unusable (absent, not an array, or empty; or its last
element lacks the nested content text), it degrades to the empty string,
which the orchestrator then reports as the empty-title error rather than
a parse failure.  Two reservations forced by the code (see the
counterexample): the JSON body `null` makes the plain `data.output_text`
access throw a TypeError, which surfaces as a TypeError notice instead of
the empty-title error; and present leaf values of unexpected primitive
type are string-coerced rather than degraded. -/
theorem claim_C4_mismatch_degrades (data : Json)
    (s : TitleGeneratorSettings) (env : HostEnv)
    (filePath content : List Char) (resp : FetchResponse)
    (hnull : data ≠ Json.null)
    (h1 : outputTextUnusable data = true)
    (h2 : outputArrayUnusable data = true ∨
      ∃ outv last, jsGetProp data "output" = some outv ∧
        jsArrLast? outv = some last ∧ lastTextUnusable last = true)
    (hp : s.provider = Provider.fireworks)
    (hm : ¬jsTrim s.fireworksModel = [])
    (hk : ¬jsTrim s.fireworksApiKey = [])
    (hfetch : env.fireworks.fetch (fireworksBody (jsTrim s.fireworksModel)
        (renderPrompt s content)) = Except.ok resp)
    (hok : resp.ok = true)
    (hjson : resp.jsonResult = Except.ok data) :
    extractFireworks data = Except.ok [] ∧
      (generateTitle s env filePath content).notices
        = ["Unable to generate title:

"
            ++ jsErrorString emptyTitleMsg] := by
  have hextnn : extractFireworksNonNull data = [] := by
    rcases h2 with h2 | ⟨outv, last, ha, hlast, h3⟩
    · exact extractFireworks_empty_of_unusable h1 h2
    · exact extractFireworks_empty_of_last_unusable h1 ha hlast h3
  have hext : extractFireworks data = Except.ok [] := by
    rw [extractFireworks_of_ne_null hnull, hextnn]
  refine ⟨hext, ?_⟩
  have hcall : callFireworks s (renderPrompt s content) env.fireworks
      = (.ok [], some (fireworksBody (jsTrim s.fireworksModel)
          (renderPrompt s content))) := by
    unfold callFireworks
    rw [if_neg hm, if_neg hk]
    simp only [hfetch, hok, hjson, hext]
    simp
  have hemp : removeInvalidFileNameChars (stripSurroundingQuotes [])
      = ([] : List Char) := by rfl
  have htry : generateTitleTry s env filePath content
      = (.error (jsErrorString emptyTitleMsg), false,
          some (fireworksBody (jsTrim s.fireworksModel)
            (renderPrompt s content))) := by
    unfold generateTitleTry
    simp only [hp, hcall, hemp]
    simp
  unfold generateTitle
  rw [htry]

/-- C4 witness settings: Fireworks selected and configured. -/
def c4WitnessSettings : TitleGeneratorSettings :=
  { provider := Provider.fireworks
    openAiApiKey := []
    openAiModel := []
    fireworksApiKey := "k".data
    fireworksModel := "m".data
    customPrompt := "p".data }

/-- C4 witness response: HTTP 200 whose JSON body is the empty object. -/
def c4WitnessResp : FetchResponse :=
  ⟨true, 200, Except.ok [], Except.ok Json.objNil⟩

/-- C4 witness environment. -/
def c4WitnessEnv : HostEnv :=
  { openAi := ⟨Except.error "unreached", Except.error "unreached"⟩
    fireworks := ⟨fun _ => Except.ok c4WitnessResp⟩
    renameResult := Except.ok () }

/-- C4 witness: the concrete instantiation at the empty-object body. -/
theorem claim_C4_witness :
    extractFireworks Json.objNil = Except.ok [] ∧
      (generateTitle c4WitnessSettings c4WitnessEnv "a.md".data
          "note".data).notices
        = ["Unable to generate title:

"
            ++ jsErrorString emptyTitleMsg] :=
  claim_C4_mismatch_degrades Json.objNil c4WitnessSettings c4WitnessEnv
    "a.md".data "note".data c4WitnessResp (by decide) (by decide)
    (Or.inl (by decide)) (by rfl) (by decide) (by decide) (by rfl)
    (by rfl) (by rfl)

/-! ### Claim C8: bulk dispatch -/

/-- The per-document environment of `generateTitleFromFile`: the outcome
of `vault.cachedRead` and the host behaviour of the generation. -/
structure DocEnv where
  readResult : Except String (List Char)
  host : HostEnv

/-- The content read succeeded. -/
def readOk (e : DocEnv) : Bool :=
  match e.readResult with
  | .ok _ => true
  | .error _ => false

/-- The content that was read (irrelevant for a failed read). -/
def readContent (e : DocEnv) : List Char :=
  match e.readResult with
  | .ok c => c
  | .error _ => []

/-- `generateTitleFromFile` from src/main.ts: read the document content
with `cachedRead` — which happens before and outside `generateTitle`'s
try/catch, so a read rejection rejects this function — then run the
orchestrator, which never rejects. -/
def generateTitleFromFile (s : TitleGeneratorSettings)
    (filePath : List Char) (env : DocEnv) : Except String GenResult :=
  match env.readResult with
  | .error e => .error e
  | .ok content => .ok (generateTitle s env.host filePath content)

/-- `pMap` with `concurrency: 1` and the default `stopOnError: true`
(the options used in src/main.ts): the mapper runs on the items strictly
one at a time in list order; if a mapper call rejects, no further item is
started and the whole map rejects with that error.  Returns the results
of the items that completed, and the stopping error if any. -/
def pMapSeq {α β : Type} (f : α → Except String β) :
    List α → List β × Option String
  | [] => ([], none)
  | a :: as =>
    match f a with
    | .error e => ([], some e)
    | .ok b =>
      let rest := pMapSeq f as
      (b :: rest.1, rest.2)

/-- The files-menu bulk dispatch registered in `onload` (src/main.ts):
`pMap(tFiles, (f) => this.generateTitleFromFile(f), { concurrency: 1 })`. -/
def generateTitles (s : TitleGeneratorSettings)
    (items : List (List Char × DocEnv)) :
    List GenResult × Option String :=
  pMapSeq (fun it => generateTitleFromFile s it.1 it.2) items

/-- C8 counterexample settings (OpenAI selected, key unset, so each
processed document fails inside `generateTitle` and is caught there). -/
def c8Settings : TitleGeneratorSettings :=
  { provider := Provider.openai
    openAiApiKey := []
    openAiModel := []
    fireworksApiKey := []
    fireworksModel := []
    customPrompt := "p".data }

/-- A host environment for the C8 scenarios. -/
def c8Host : HostEnv :=
  { openAi := ⟨Except.error "boom", Except.error "boom"⟩
    fireworks := ⟨fun _ => Except.error "boom"⟩
    renameResult := Except.ok () }

/-- A document whose content read succeeds. -/
def c8GoodDoc : DocEnv := ⟨Except.ok "text".data, c8Host⟩

/-- A document whose content read rejects. -/
def c8BadDoc : DocEnv := ⟨Except.error "Error: read failed", c8Host⟩

/-- The three-document batch whose second document's read rejects. -/
def c8Items : List (List Char × DocEnv) :=
  [("a.md".data, c8GoodDoc), ("b.md".data, c8BadDoc),
    ("c.md".data, c8GoodDoc)]

/-- C8 counterexample: over three documents where the second document's
content read rejects, only the first document completes — the third is
never processed, because the read happens outside `generateTitle`'s
try/catch and `pMap` (default `stopOnError`) stops at the mapper
rejection.  This refutes the claimed unconditional per-document failure
isolation. -/
theorem claim_C8_counterexample :
    c8Items.length = 3 ∧
      (generateTitles c8Settings c8Items).1.length = 1 ∧
      (generateTitles c8Settings c8Items).2 = some "Error: read failed" := by
  refine ⟨rfl, ?_, ?_⟩ <;> decide

/-- C8 (amended): with `concurrency: 1` the documents are processed
strictly one at a time in sequence order, and a failure *inside*
`generateTitle` while processing document k (configuration, provider,
empty-title, or rename errors — all caught at the orchestrator boundary)
does not prevent documents k+1..N from being processed: whenever every
content read succeeds, the bulk dispatch completes every document in
order, each document's outcome depending only on that document's own
environment.  Only a rejection of the content read itself — outside the
orchestrator's try/catch — aborts the remaining documents (see the
counterexample). -/
theorem claim_C8_sequential_isolation (s : TitleGeneratorSettings)
    (items : List (List Char × DocEnv))
    (h : ∀ it ∈ items, readOk it.2 = true) :
    (generateTitles s items).1
        = items.map (fun it => generateTitle s it.2.host it.1
            (readContent it.2)) ∧
      (generateTitles s items).2 = none := by
  induction items with
  | nil => exact ⟨rfl, rfl⟩
  | cons a as ih =>
    have ha : readOk a.2 = true := h a (List.mem_cons_self _ _)
    obtain ⟨ih1, ih2⟩ := ih (fun it hit => h it (List.mem_cons_of_mem _ hit))
    cases hr : a.2.readResult with
    | error e =>
      unfold readOk at ha
      rw [hr] at ha
      cases ha
    | ok c =>
      have hf : generateTitleFromFile s a.1 a.2
          = Except.ok (generateTitle s a.2.host a.1 c) := by
        unfold generateTitleFromFile
        rw [hr]
      have hrc : readContent a.2 = c := by
        unfold readContent
        rw [hr]
      have hstep : generateTitles s (a :: as)
          = ((generateTitle s a.2.host a.1 c) :: (generateTitles s as).1,
              (generateTitles s as).2) := by
        unfold generateTitles
        simp only [pMapSeq, hf]
      rw [hstep]
      exact ⟨by rw [List.map_cons, hrc, ← ih1], ih2⟩

/-- C8 witness: a concrete two-document batch with successful reads is
processed completely and in order. -/
theorem claim_C8_witness :
    (generateTitles c8Settings
        [("a.md".data, c8GoodDoc), ("c.md".data, c8GoodDoc)]).1
        = [("a.md".data, c8GoodDoc), ("c.md".data, c8GoodDoc)].map
            (fun it => generateTitle c8Settings it.2.host it.1
              (readContent it.2)) ∧
      (generateTitles c8Settings
        [("a.md".data, c8GoodDoc), ("c.md".data, c8GoodDoc)]).2 = none :=
  claim_C8_sequential_isolation c8Settings
    [("a.md".data, c8GoodDoc), ("c.md".data, c8GoodDoc)] (by decide)

end TitleGen
